import Mathlib

/-
Verification of the isolation-forest implementation in
src/isolation_forest.py (classes Node, IsolationTree, IsolationForest).

Modelling conventions:
* Python floats are modelled as real numbers (exact real arithmetic).
* Fallible operations (list indexing, min of an empty set, division by
  zero) are modelled in the Except monad, with strings naming the Python
  exception that the corresponding source line would raise.
* The ambient random draws (random.choice for the split feature,
  random.random for the split fraction, random.sample for the subsample)
  are modelled as explicit oracle parameters: an oracle maps a tree
  position (the list of left/right decisions from the root) to the pair
  (split_feature, r) that the construction draws at that node, and a
  sample oracle gives each tree its drawn index list.
* The source builds the tree breadth-first over a queue whose loop stops
  when the front entry's depth exceeds max_depth; since queue depths are
  non-decreasing, exactly the nodes of depth at most max_depth are split,
  so the construction is embedded as structural recursion on the fuel
  max_depth + 1 - depth, which produces the same tree.
-/

/-- Tree node (class Node): a node either has both children (its
split_feature and split_point were set and the split succeeded) or is a
leaf.  Every node records the size of the index set it was created with. -/
inductive Node where
  | leaf (size : ℕ)
  | node (size : ℕ) (split_feature : ℕ) (split_point : ℝ)
      (left : Node) (right : Node)

/-- Node.size attribute. -/
def Node.size : Node → ℕ
  | .leaf s => s
  | .node s _ _ _ _ => s

/-- IsolationForest._get_adjustment: harmonic-number approximation of the
expected path length, exactly as the source computes it. -/
noncomputable def get_adjustment (node_size : ℤ) : ℝ :=
  if 2 < node_size then
    2 * (Real.log ((node_size : ℝ) - 1) + 0.5772156649)
      - 2 * ((node_size : ℝ) - 1) / (node_size : ℝ)
  else if node_size = 2 then 1
  else 0

/-- Python list indexing X[i][f]; raises IndexError when out of range. -/
def getCell (X : List (List ℝ)) (i f : ℕ) : Except String ℝ :=
  match X.get? i with
  | none => .error "IndexError"
  | some row =>
    match row.get? f with
    | none => .error "IndexError"
    | some v => .ok v

/-- Left-to-right effectful map over a list in the Except monad (the
semantics of Python list comprehensions and loops: the first raised
exception aborts the whole computation). -/
def exceptMapM {α β : Type} (g : α → Except String β) :
    List α → Except String (List β)
  | [] => .ok []
  | a :: as =>
    match g a with
    | .error e => .error e
    | .ok b =>
      match exceptMapM g as with
      | .error e => .error e
      | .ok bs => .ok (b :: bs)

/-- The column values map(lambda i: X[i][split_feature], idx) used by
IsolationTree._get_split. -/
def colValsE (X : List (List ℝ)) (idx : List ℕ) (f : ℕ) :
    Except String (List ℝ) :=
  exceptMapM (fun i => getCell X i f) idx

/-- min of a finite set of reals, with a junk value on the empty set
(where Python's min raises ValueError; the callers below signal that
case through Except instead). -/
noncomputable def fmin (s : Finset ℝ) : ℝ :=
  if h : s.Nonempty then s.min' h else 0

/-- max of a finite set of reals, junk value on the empty set. -/
noncomputable def fmax (s : Finset ℝ) : ℝ :=
  if h : s.Nonempty then s.max' h else 0

/-- Core of IsolationTree._get_split, acting on the already-fetched column
values: form the set of distinct values, return no split when it has
exactly one element, otherwise remove its minimum and scale the draw r
into [min of rest, max of rest).  min on an empty set is Python's
ValueError. -/
noncomputable def splitOfVals (vals : List ℝ) (r : ℝ) :
    Except String (Option ℝ) :=
  let unique := vals.toFinset
  if unique.card = 1 then .ok none
  else if h : unique.Nonempty then
    let rest := unique.erase (unique.min' h)
    if rest.Nonempty then
      .ok (some (r * (fmax rest - fmin rest) + fmin rest))
    else .error "ValueError"
  else .error "ValueError"

/-- IsolationTree._get_split: fetch the column values of the indexed rows,
then select the split point from their distinct values. -/
noncomputable def get_split (X : List (List ℝ)) (idx : List ℕ) (f : ℕ)
    (r : ℝ) : Except String (Option ℝ) :=
  match colValsE X idx f with
  | .error e => .error e
  | .ok vals => splitOfVals vals r

/-- The partition loop of IsolationTree._build_tree: pop indices from the
end of idx, appending each to idx_left when its value in column f is
strictly below the split point p and to idx_right otherwise. -/
noncomputable def splitIdxLoop (X : List (List ℝ)) (f : ℕ) (p : ℝ) :
    List ℕ → List ℕ → List ℕ → Except String (List ℕ × List ℕ)
  | [], accl, accr => .ok (accl, accr)
  | i :: rest, accl, accr =>
    match getCell X i f with
    | .error e => .error e
    | .ok xi =>
      if xi < p then splitIdxLoop X f p rest (accl ++ [i]) accr
      else splitIdxLoop X f p rest accl (accr ++ [i])

/-- Partition of an index set by the split point (the while idx: loop,
which consumes idx from its end). -/
noncomputable def splitIdx (X : List (List ℝ)) (f : ℕ) (p : ℝ)
    (idx : List ℕ) : Except String (List ℕ × List ℕ) :=
  splitIdxLoop X f p idx.reverse [] []

/-- IsolationTree._build_tree, embedded as recursion on the remaining
depth budget (fuel): a node processed with fuel 0 was never dequeued
(its depth exceeds max_depth) and stays a leaf; otherwise the node draws
(split_feature, r) from the oracle at its position, computes the split
point, and either becomes a leaf (no split) or partitions its index set
and builds both children with one unit less fuel. -/
noncomputable def build_tree (X : List (List ℝ))
    (oracle : List Bool → ℕ × ℝ) :
    ℕ → List Bool → List ℕ → Except String Node
  | 0, _, idx => .ok (.leaf idx.length)
  | rem + 1, path, idx =>
    match get_split X idx (oracle path).1 (oracle path).2 with
    | .error e => .error e
    | .ok none => .ok (.leaf idx.length)
    | .ok (some p) =>
      match splitIdx X (oracle path).1 p idx with
      | .error e => .error e
      | .ok (l, rr) =>
        match build_tree X oracle rem (path ++ [false]) l,
              build_tree X oracle rem (path ++ [true]) rr with
        | .ok lt, .ok rt => .ok (.node idx.length (oracle path).1 p lt rt)
        | .error e, _ => .error e
        | .ok _, .error e => .error e

/-- IsolationTree.__init__ followed by _build_tree: on an empty dataset
the first line m = len(X[0]) raises IndexError; otherwise the root is
built at depth 0 (fuel max_depth + 1) over the sampled index list.
idxSample models random.sample(range(len X), clamped n_samples). -/
noncomputable def isolation_tree (X : List (List ℝ)) (maxDepth : ℕ)
    (idxSample : List ℕ) (oracle : List Bool → ℕ × ℝ) :
    Except String Node :=
  match X with
  | [] => .error "IndexError"
  | _ :: _ => build_tree X oracle (maxDepth + 1) [] idxSample

/-- IsolationForest state after fit: the tree list and the adjustment. -/
structure Forest where
  trees : List Node
  adjustment : ℝ

/-- IsolationForest.fit: store adjustment = _get_adjustment(n_samples)
(the configured, unclamped subsample size) and build n_trees isolation
trees, each with its own sample and random oracle. -/
noncomputable def fit (X : List (List ℝ)) (n_samples maxDepth n_trees : ℕ)
    (samples : ℕ → List ℕ) (oracles : ℕ → List Bool → ℕ × ℝ) :
    Except String Forest :=
  match exceptMapM
      (fun k => isolation_tree X maxDepth (samples k) (oracles k))
      (List.range n_trees) with
  | .error e => .error e
  | .ok ts => .ok ⟨ts, get_adjustment (n_samples : ℤ)⟩

/-- IsolationTree._predict: descend from the node, going left when the
row's value at the node's split feature is strictly below its split
point, accumulating the depth; return (depth, size) at the leaf.
Accessing row[split_feature] out of range is IndexError. -/
noncomputable def tree_predict_from : Node → List ℝ → ℕ →
    Except String (ℕ × ℕ)
  | .leaf s, _, d => .ok (d, s)
  | .node _ f p l r, row, d =>
    match row.get? f with
    | none => .error "IndexError"
    | some v =>
      if v < p then tree_predict_from l row (d + 1)
      else tree_predict_from r row (d + 1)

/-- IsolationTree._predict starting at the root with depth 0. -/
noncomputable def tree_predict (t : Node) (row : List ℝ) :
    Except String (ℕ × ℕ) :=
  tree_predict_from t row 0

/-- The accumulation loop of IsolationForest._predict:
score += depth + _get_adjustment(node_size) over the trees. -/
noncomputable def score_loop (row : List ℝ) :
    List Node → ℝ → Except String ℝ
  | [], acc => .ok acc
  | t :: ts, acc =>
    match tree_predict t row with
    | .error e => .error e
    | .ok ds =>
      score_loop row ts (acc + ((ds.1 : ℝ) + get_adjustment (ds.2 : ℤ)))

/-- IsolationForest._predict: average the per-tree adjusted depths and
scale; dividing by len(trees) or by adjustment is ZeroDivisionError when
the divisor is zero. -/
noncomputable def forest_predict_row (F : Forest) (row : List ℝ) :
    Except String ℝ :=
  match score_loop row F.trees 0 with
  | .error e => .error e
  | .ok score =>
    if F.trees.length = 0 then .error "ZeroDivisionError"
    else if F.adjustment = 0 then .error "ZeroDivisionError"
    else .ok ((2 : ℝ) ^
      (-(score / (F.trees.length : ℝ) / F.adjustment)))

/-- IsolationForest.predict: one score per input row, in order. -/
noncomputable def forest_predict (F : Forest) (X : List (List ℝ)) :
    Except String (List ℝ) :=
  exceptMapM (forest_predict_row F) X

/-- Modelled from the spec (4.3): the reference descent relation for a
query.  At an internal node read the row's value at the split feature, go
left iff it is strictly below the split point, stop at the first node
with no children, and return the leaf's size together with the number of
edges traversed (one increment per edge, 0 at the root). -/
noncomputable def spec_descend : Node → List ℝ → Option (ℕ × ℕ)
  | .leaf s, _ => some (0, s)
  | .node _ f p l r, row =>
    match row.get? f with
    | none => none
    | some v =>
      if v < p then
        match spec_descend l row with
        | none => none
        | some ds => some (ds.1 + 1, ds.2)
      else
        match spec_descend r row with
        | none => none
        | some ds => some (ds.1 + 1, ds.2)

/-- Modelled from the spec (4.2): the distinct values remaining after the
minimum distinct value is excluded. -/
noncomputable def restF (vals : List ℝ) : Finset ℝ :=
  vals.toFinset.erase (fmin vals.toFinset)

/-! ### Basic facts about the adjustment formula -/

lemma get_adjustment_of_le_one {n : ℤ} (h : n ≤ 1) : get_adjustment n = 0 := by
  unfold get_adjustment
  rw [if_neg (by omega), if_neg (by omega)]

lemma get_adjustment_two : get_adjustment 2 = 1 := by
  unfold get_adjustment
  rw [if_neg (by omega), if_pos rfl]

lemma get_adjustment_one : get_adjustment 1 = 0 :=
  get_adjustment_of_le_one le_rfl

lemma get_adjustment_of_gt_two {n : ℤ} (h : 2 < n) :
    get_adjustment n =
      2 * (Real.log ((n : ℝ) - 1) + 0.5772156649)
        - 2 * ((n : ℝ) - 1) / (n : ℝ) := by
  unfold get_adjustment
  rw [if_pos h]

/-- The adjustment is nonnegative for every integer node size. -/
lemma get_adjustment_nonneg (n : ℤ) : 0 ≤ get_adjustment n := by
  rcases lt_trichotomy n 2 with h | h | h
  · rw [get_adjustment_of_le_one (by omega)]
  · rw [h, get_adjustment_two]; norm_num
  · rw [get_adjustment_of_gt_two h]
    have hn3 : (3 : ℝ) ≤ (n : ℝ) := by exact_mod_cast h
    have hnpos : (0 : ℝ) < (n : ℝ) := by linarith
    have hlog : Real.log 2 ≤ Real.log ((n : ℝ) - 1) := by
      rw [Real.log_le_log_iff (by norm_num) (by linarith)]
      linarith
    have hlog2 := Real.log_two_gt_d9
    have hdiv : 2 * ((n : ℝ) - 1) / (n : ℝ) ≤ 2 := by
      rw [div_le_iff hnpos]; linarith
    linarith

/-- The adjustment is strictly positive for node sizes at least 2. -/
lemma get_adjustment_pos {n : ℤ} (h : 2 ≤ n) : 0 < get_adjustment n := by
  rcases eq_or_lt_of_le h with h2 | h2
  · rw [← h2, get_adjustment_two]; norm_num
  · rw [get_adjustment_of_gt_two h2]
    have hn3 : (3 : ℝ) ≤ (n : ℝ) := by exact_mod_cast h2
    have hnpos : (0 : ℝ) < (n : ℝ) := by linarith
    have hlog : Real.log 2 ≤ Real.log ((n : ℝ) - 1) := by
      rw [Real.log_le_log_iff (by norm_num) (by linarith)]
      linarith
    have hlog2 := Real.log_two_gt_d9
    have hdiv : 2 * ((n : ℝ) - 1) / (n : ℝ) ≤ 2 := by
      rw [div_le_iff hnpos]; linarith
    linarith

/-! ### Facts about exceptMapM -/

lemma exceptMapM_ok_length {α β : Type} {g : α → Except String β}
    {l : List α} {ys : List β} (h : exceptMapM g l = .ok ys) :
    ys.length = l.length := by
  induction l generalizing ys with
  | nil =>
    simp only [exceptMapM] at h
    cases h; rfl
  | cons a as ih =>
    simp only [exceptMapM] at h
    cases hg : g a with
    | error e => rw [hg] at h; cases h
    | ok b =>
      rw [hg] at h
      cases hm : exceptMapM g as with
      | error e => rw [hm] at h; cases h
      | ok bs =>
        rw [hm] at h
        cases h
        simp [ih hm]

lemma exceptMapM_ok_get {α β : Type} {g : α → Except String β}
    {l : List α} {ys : List β} (h : exceptMapM g l = .ok ys) :
    ∀ i (hi : i < l.length) (hi2 : i < ys.length),
      g (l.get ⟨i, hi⟩) = .ok (ys.get ⟨i, hi2⟩) := by
  induction l generalizing ys with
  | nil => intro i hi; simp at hi
  | cons a as ih =>
    simp only [exceptMapM] at h
    cases hg : g a with
    | error e => rw [hg] at h; cases h
    | ok b =>
      rw [hg] at h
      cases hm : exceptMapM g as with
      | error e => rw [hm] at h; cases h
      | ok bs =>
        rw [hm] at h
        cases h
        intro i hi hi2
        cases i with
        | zero => simpa using hg
        | succ j =>
          exact ih hm j (by simpa using hi) (by simpa using hi2)

lemma exceptMapM_ok_mem {α β : Type} {g : α → Except String β}
    {l : List α} {ys : List β} (h : exceptMapM g l = .ok ys) :
    ∀ y ∈ ys, ∃ a ∈ l, g a = .ok y := by
  induction l generalizing ys with
  | nil =>
    simp only [exceptMapM] at h
    cases h; intro y hy; simp at hy
  | cons a as ih =>
    simp only [exceptMapM] at h
    cases hg : g a with
    | error e => rw [hg] at h; cases h
    | ok b =>
      rw [hg] at h
      cases hm : exceptMapM g as with
      | error e => rw [hm] at h; cases h
      | ok bs =>
        rw [hm] at h
        cases h
        intro y hy
        rcases List.mem_cons.mp hy with hy | hy
        · exact ⟨a, List.mem_cons_self a as, by rw [hg, hy]⟩
        · rcases ih hm y hy with ⟨c, hc, hgc⟩
          exact ⟨c, List.mem_cons_of_mem a hc, hgc⟩

lemma exceptMapM_mem_ok {α β : Type} {g : α → Except String β}
    {l : List α} {ys : List β} (h : exceptMapM g l = .ok ys) :
    ∀ a ∈ l, ∃ y ∈ ys, g a = .ok y := by
  induction l generalizing ys with
  | nil => intro a ha; simp at ha
  | cons a as ih =>
    simp only [exceptMapM] at h
    cases hg : g a with
    | error e => rw [hg] at h; cases h
    | ok b =>
      rw [hg] at h
      cases hm : exceptMapM g as with
      | error e => rw [hm] at h; cases h
      | ok bs =>
        rw [hm] at h
        cases h
        intro c hc
        rcases List.mem_cons.mp hc with hc | hc
        · exact ⟨b, List.mem_cons_self b bs, by rw [hc, hg]⟩
        · rcases ih hm c hc with ⟨y, hy, hgy⟩
          exact ⟨y, List.mem_cons_of_mem b hy, hgy⟩

lemma exceptMapM_error_of_first {α β : Type} {g : α → Except String β}
    {l : List α} {e : String} (hne : l ≠ [])
    (h : ∀ a ∈ l, g a = .error e) : exceptMapM g l = .error e := by
  cases l with
  | nil => exact absurd rfl hne
  | cons a as =>
    simp only [exceptMapM]
    rw [h a (List.mem_cons_self a as)]

/-! ### Facts about fmin / fmax -/

lemma fmin_mem {s : Finset ℝ} (h : s.Nonempty) : fmin s ∈ s := by
  rw [fmin, dif_pos h]; exact s.min'_mem h

lemma fmax_mem {s : Finset ℝ} (h : s.Nonempty) : fmax s ∈ s := by
  rw [fmax, dif_pos h]; exact s.max'_mem h

lemma fmin_le {s : Finset ℝ} {x : ℝ} (hx : x ∈ s) : fmin s ≤ x := by
  rw [fmin, dif_pos ⟨x, hx⟩]; exact s.min'_le x hx

lemma le_fmax {s : Finset ℝ} {x : ℝ} (hx : x ∈ s) : x ≤ fmax s := by
  rw [fmax, dif_pos ⟨x, hx⟩]; exact s.le_max' x hx

lemma fmin_le_fmax {s : Finset ℝ} (h : s.Nonempty) : fmin s ≤ fmax s :=
  le_trans (fmin_le (fmax_mem h)) le_rfl

lemma fmin_singleton (a : ℝ) : fmin {a} = a := by
  rw [fmin, dif_pos (Finset.singleton_nonempty a)]
  exact Finset.min'_singleton a

lemma fmax_singleton (a : ℝ) : fmax {a} = a := by
  rw [fmax, dif_pos (Finset.singleton_nonempty a)]
  exact Finset.max'_singleton a

lemma fmin_pair {a b : ℝ} (h : a ≤ b) : fmin {a, b} = a := by
  have hmem : a ∈ ({a, b} : Finset ℝ) := by simp
  refine le_antisymm (fmin_le hmem) ?_
  rw [fmin, dif_pos ⟨a, hmem⟩]
  apply Finset.le_min'
  intro y hy
  rcases Finset.mem_insert.mp hy with hy | hy
  · rw [hy]
  · rw [Finset.mem_singleton.mp hy]; exact h

lemma fmax_pair {a b : ℝ} (h : a ≤ b) : fmax {a, b} = b := by
  have hmem : b ∈ ({a, b} : Finset ℝ) := by simp
  refine le_antisymm ?_ (le_fmax hmem)
  rw [fmax, dif_pos ⟨b, hmem⟩]
  apply Finset.max'_le
  intro y hy
  rcases Finset.mem_insert.mp hy with hy | hy
  · rw [hy]; exact h
  · rw [Finset.mem_singleton.mp hy]

/-- Every element of a nonempty set other than its minimum is strictly
above the minimum. -/
lemma fmin_lt_of_mem_of_ne {s : Finset ℝ} {x : ℝ} (hx : x ∈ s)
    (hne : x ≠ fmin s) : fmin s < x :=
  lt_of_le_of_ne (fmin_le hx) (Ne.symm hne)

/-- Removing the minimum from a set with at least two elements keeps the
maximum unchanged. -/
lemma fmax_erase_fmin {s : Finset ℝ} (h2 : 2 ≤ s.card) :
    fmax (s.erase (fmin s)) = fmax s := by
  have hne : s.Nonempty := Finset.card_pos.mp (by omega)
  have hlt : fmin s < fmax s := by
    have hcard : 1 < s.card := by omega
    rw [fmin, dif_pos hne, fmax, dif_pos hne]
    exact s.min'_lt_max'_of_card hcard
  have hmem : fmax s ∈ s.erase (fmin s) :=
    Finset.mem_erase.mpr ⟨ne_of_gt hlt, fmax_mem hne⟩
  refine le_antisymm ?_ (le_fmax hmem)
  rw [fmax, dif_pos ⟨_, hmem⟩]
  apply Finset.max'_le
  intro y hy
  exact le_fmax (Finset.mem_of_mem_erase hy)

/-- Elements of the erased set sit strictly above the removed minimum. -/
lemma fmin_lt_fmin_erase {s : Finset ℝ} (h2 : 2 ≤ s.card) :
    fmin s < fmin (s.erase (fmin s)) := by
  have hne : s.Nonempty := Finset.card_pos.mp (by omega)
  have hrest : (s.erase (fmin s)).Nonempty := by
    apply Finset.card_pos.mp
    rw [Finset.card_erase_of_mem (fmin_mem hne)]
    omega
  rcases hrest with ⟨y, hy⟩
  have hmin := fmin_mem (⟨y, hy⟩ : (s.erase (fmin s)).Nonempty)
  rcases Finset.mem_erase.mp hmin with ⟨hne2, hmem⟩
  exact fmin_lt_of_mem_of_ne hmem hne2

/-! ### Characterization of split-point selection -/

/-- When the distinct values form at least a 2-element set, splitOfVals
returns a split point and that point is the affine scaling of r over the
remaining distinct values. -/
lemma splitOfVals_eq_some {vals : List ℝ} {r : ℝ}
    (h2 : 2 ≤ vals.toFinset.card) :
    splitOfVals vals r =
      .ok (some (r * (fmax (restF vals) - fmin (restF vals))
        + fmin (restF vals))) := by
  have hne : vals.toFinset.Nonempty := Finset.card_pos.mp (by omega)
  have hrest : (vals.toFinset.erase (vals.toFinset.min' hne)).Nonempty := by
    apply Finset.card_pos.mp
    rw [Finset.card_erase_of_mem (vals.toFinset.min'_mem hne)]
    omega
  unfold splitOfVals
  rw [if_neg (by omega), dif_pos hne, if_pos hrest]
  have hm : vals.toFinset.min' hne = fmin vals.toFinset := by
    rw [fmin, dif_pos hne]
  rw [restF, ← hm]

/-- splitOfVals yields no split exactly on a single distinct value.  (On
an empty value list it raises ValueError instead of returning.) -/
lemma splitOfVals_none_iff {vals : List ℝ} {r : ℝ} :
    splitOfVals vals r = .ok none ↔ vals.toFinset.card = 1 := by
  constructor
  · intro h
    by_contra hc
    rcases Nat.lt_or_ge vals.toFinset.card 2 with hlt | hge
    · have h0 : vals.toFinset.card = 0 := by omega
      have hne : ¬ vals.toFinset.Nonempty := by
        rw [Finset.nonempty_iff_ne_empty]
        simpa using Finset.card_eq_zero.mp h0
      unfold splitOfVals at h
      rw [if_neg hc, dif_neg hne] at h
      cases h
    · rw [splitOfVals_eq_some hge] at h
      cases h
  · intro h
    unfold splitOfVals
    rw [if_pos h]

/-- Inversion: a returned split point determines the distinct-value count
and the split-point formula. -/
lemma splitOfVals_some_inv {vals : List ℝ} {r p : ℝ}
    (h : splitOfVals vals r = .ok (some p)) :
    2 ≤ vals.toFinset.card ∧
      p = r * (fmax (restF vals) - fmin (restF vals)) + fmin (restF vals) := by
  rcases Nat.lt_or_ge vals.toFinset.card 2 with hlt | hge
  · exfalso
    rcases Nat.lt_or_ge vals.toFinset.card 1 with h0 | h1
    · have h0 : vals.toFinset.card = 0 := by omega
      have hne : ¬ vals.toFinset.Nonempty := by
        rw [Finset.nonempty_iff_ne_empty]
        simpa using Finset.card_eq_zero.mp h0
      unfold splitOfVals at h
      rw [if_neg (by omega), dif_neg hne] at h
      cases h
    · have h1 : vals.toFinset.card = 1 := by omega
      rw [splitOfVals_none_iff.mpr h1] at h
      cases h
  · rw [splitOfVals_eq_some hge] at h
    refine ⟨hge, ?_⟩
    cases h
    rfl

/-! ### Monotonicity of the adjustment -/

lemma get_adjustment_int_step {n : ℤ} (h : 2 ≤ n) :
    get_adjustment n ≤ get_adjustment (n + 1) := by
  rcases eq_or_lt_of_le h with h2 | h2
  · rw [← h2, get_adjustment_two, get_adjustment_of_gt_two (by omega)]
    have hlog2 := Real.log_two_gt_d9
    norm_num
    linarith
  · have hgt : (2 : ℤ) < n + 1 := by omega
    rw [get_adjustment_of_gt_two h2, get_adjustment_of_gt_two hgt]
    have hn3 : (3 : ℝ) ≤ (n : ℝ) := by exact_mod_cast h2
    push_cast
    set x : ℝ := (n : ℝ) with hx
    have hx0 : (0 : ℝ) < x := by linarith
    have hx1 : (0 : ℝ) < x - 1 := by linarith
    have hx2 : (0 : ℝ) < x + 1 := by linarith
    have hsimp : x + 1 - 1 = x := by ring
    rw [hsimp]
    have hkey : 1 / x ≤ Real.log x - Real.log (x - 1) := by
      have hlog := Real.log_le_sub_one_of_pos
        (show (0 : ℝ) < (x - 1) / x by positivity)
      rw [Real.log_div (by linarith) (by linarith)] at hlog
      have heq : (x - 1) / x - 1 = -(1 / x) := by field_simp
      rw [heq] at hlog
      linarith
    have hfrac : 2 * x / (x + 1) - 2 * (x - 1) / x = 2 / (x * (x + 1)) := by
      field_simp
      ring
    have hfrac2 : 2 / (x * (x + 1)) ≤ 2 * (1 / x) := by
      rw [mul_one_div, div_le_div_iff (by positivity) hx0]
      nlinarith
    linarith

lemma get_adjustment_mono {a b : ℤ} (ha : 2 ≤ a) (hab : a ≤ b) :
    get_adjustment a ≤ get_adjustment b := by
  exact @Int.le_induction
    (fun n => get_adjustment a ≤ get_adjustment n) a le_rfl
    (fun n hn ih => le_trans ih (get_adjustment_int_step (le_trans ha hn)))
    b hab

/-- C2: for every integer node_size, the adjustment equals
2 * (ln(node_size - 1) + 0.5772156649) - 2 * (node_size - 1) / node_size
when node_size > 2, equals 1 when node_size = 2, and equals 0 when
node_size <= 1 (exactly the three branches of
IsolationForest._get_adjustment). -/
theorem adjustment_formula (n : ℤ) :
    (2 < n → get_adjustment n =
      2 * (Real.log ((n : ℝ) - 1) + 0.5772156649)
        - 2 * ((n : ℝ) - 1) / (n : ℝ)) ∧
    (n = 2 → get_adjustment n = 1) ∧
    (n ≤ 1 → get_adjustment n = 0) :=
  ⟨get_adjustment_of_gt_two,
   fun h => by rw [h, get_adjustment_two],
   get_adjustment_of_le_one⟩

/-- Witness for C2: the three branches evaluated at 3, 2 and 0. -/
theorem adjustment_formula_witness :
    get_adjustment 3 =
      2 * (Real.log (((3 : ℤ) : ℝ) - 1) + 0.5772156649)
        - 2 * (((3 : ℤ) : ℝ) - 1) / ((3 : ℤ) : ℝ) ∧
    get_adjustment 2 = 1 ∧ get_adjustment 0 = 0 :=
  ⟨(adjustment_formula 3).1 (by norm_num),
   (adjustment_formula 2).2.1 rfl,
   (adjustment_formula 0).2.2 (by norm_num)⟩

/-- C8: expected_path_length(1) = 0, expected_path_length(2) = 1, and the
adjustment is monotonically non-decreasing on integer node sizes >= 2. -/
theorem adjustment_monotone :
    get_adjustment 1 = 0 ∧ get_adjustment 2 = 1 ∧
    ∀ a b : ℤ, 2 ≤ a → a ≤ b → get_adjustment a ≤ get_adjustment b :=
  ⟨get_adjustment_one, get_adjustment_two,
   fun _ _ ha hab => get_adjustment_mono ha hab⟩

/-- Witness for C8: monotonicity applied at node sizes 2 and 3. -/
theorem adjustment_monotone_witness :
    get_adjustment 2 ≤ get_adjustment 3 :=
  adjustment_monotone.2.2 2 3 (by norm_num) (by norm_num)

/-! ### The query loop against the specification descent -/

lemma tree_predict_from_node_none {s f : ℕ} {p : ℝ} {l r : Node}
    {row : List ℝ} {d : ℕ} (hv : row.get? f = none) :
    tree_predict_from (.node s f p l r) row d = .error "IndexError" := by
  rw [List.get?_eq_getElem?] at hv
  simp [tree_predict_from, hv]

lemma tree_predict_from_node_lt {s f : ℕ} {p v : ℝ} {l r : Node}
    {row : List ℝ} {d : ℕ} (hv : row.get? f = some v) (hvp : v < p) :
    tree_predict_from (.node s f p l r) row d =
      tree_predict_from l row (d + 1) := by
  rw [List.get?_eq_getElem?] at hv
  simp [tree_predict_from, hv, hvp]

lemma tree_predict_from_node_ge {s f : ℕ} {p v : ℝ} {l r : Node}
    {row : List ℝ} {d : ℕ} (hv : row.get? f = some v) (hvp : ¬ v < p) :
    tree_predict_from (.node s f p l r) row d =
      tree_predict_from r row (d + 1) := by
  rw [List.get?_eq_getElem?] at hv
  simp [tree_predict_from, hv, hvp]

lemma spec_descend_node_none {s f : ℕ} {p : ℝ} {l r : Node}
    {row : List ℝ} (hv : row.get? f = none) :
    spec_descend (.node s f p l r) row = none := by
  rw [List.get?_eq_getElem?] at hv
  simp [spec_descend, hv]

lemma spec_descend_node_lt {s f : ℕ} {p v : ℝ} {l r : Node}
    {row : List ℝ} (hv : row.get? f = some v) (hvp : v < p) :
    spec_descend (.node s f p l r) row =
      match spec_descend l row with
      | none => none
      | some ds => some (ds.1 + 1, ds.2) := by
  rw [List.get?_eq_getElem?] at hv
  simp [spec_descend, hv, hvp]

lemma spec_descend_node_ge {s f : ℕ} {p v : ℝ} {l r : Node}
    {row : List ℝ} (hv : row.get? f = some v) (hvp : ¬ v < p) :
    spec_descend (.node s f p l r) row =
      match spec_descend r row with
      | none => none
      | some ds => some (ds.1 + 1, ds.2) := by
  rw [List.get?_eq_getElem?] at hv
  simp [spec_descend, hv, hvp]

lemma tree_predict_from_spec (t : Node) (row : List ℝ) (d : ℕ) :
    tree_predict_from t row d =
      match spec_descend t row with
      | none => .error "IndexError"
      | some ds => .ok (d + ds.1, ds.2) := by
  induction t generalizing d with
  | leaf s => simp [tree_predict_from, spec_descend]
  | node s f p l r ihl ihr =>
    cases hv : row.get? f with
    | none => rw [tree_predict_from_node_none hv, spec_descend_node_none hv]
    | some v =>
      by_cases hvp : v < p
      · rw [tree_predict_from_node_lt hv hvp, spec_descend_node_lt hv hvp,
          ihl]
        cases spec_descend l row with
        | none => rfl
        | some ds =>
          have harith : d + 1 + ds.1 = d + (ds.1 + 1) := by omega
          simp [harith]
      · rw [tree_predict_from_node_ge hv hvp, spec_descend_node_ge hv hvp,
          ihr]
        cases spec_descend r row with
        | none => rfl
        | some ds =>
          have harith : d + 1 + ds.1 = d + (ds.1 + 1) := by omega
          simp [harith]

/-- C4: the query of a built tree descends from the root, going left at
an internal node exactly when the row's value at that node's
split_feature is strictly below its split_point, stops at the first node
with no children, and returns (depth_reached, leaf.size) with depth 0 at
the root and exactly one increment per edge — i.e. IsolationTree._predict
agrees with the specification descent spec_descend (and raises
IndexError exactly when the descent would read past the end of the row).
The query is a pure function of the tree and the row, so the tree is
never mutated. -/
theorem tree_predict_follows_spec (t : Node) (row : List ℝ) :
    tree_predict t row =
      match spec_descend t row with
      | none => .error "IndexError"
      | some ds => .ok ds := by
  rw [tree_predict, tree_predict_from_spec]
  cases spec_descend t row with
  | none => rfl
  | some ds => simp

/-! ### Size and depth bounds for built trees -/

lemma build_tree_ok_size {X : List (List ℝ)} {o : List Bool → ℕ × ℝ}
    {rem : ℕ} {path : List Bool} {idx : List ℕ} {t : Node}
    (h : build_tree X o rem path idx = .ok t) : t.size = idx.length := by
  cases rem with
  | zero =>
    simp only [build_tree] at h
    cases h
    rfl
  | succ rem =>
    simp only [build_tree] at h
    cases hg : get_split X idx (o path).1 (o path).2 with
    | error e => simp only [hg] at h; cases h
    | ok sp =>
      simp only [hg] at h
      cases sp with
      | none => cases h; rfl
      | some p =>
        cases hs : splitIdx X (o path).1 p idx with
        | error e => simp only [hs] at h; cases h
        | ok pr =>
          obtain ⟨l, rr⟩ := pr
          simp only [hs] at h
          cases hbl : build_tree X o rem (path ++ [false]) l with
          | error e => simp only [hbl] at h; cases h
          | ok lt =>
            cases hbr : build_tree X o rem (path ++ [true]) rr with
            | error e => simp only [hbl, hbr] at h; cases h
            | ok rt =>
              simp only [hbl, hbr] at h
              cases h
              rfl

lemma build_tree_depth_bound {X : List (List ℝ)} {o : List Bool → ℕ × ℝ} :
    ∀ (rem : ℕ) (path : List Bool) (idx : List ℕ) (t : Node),
      build_tree X o rem path idx = .ok t →
      ∀ (row : List ℝ) (d : ℕ) (ds : ℕ × ℕ),
        tree_predict_from t row d = .ok ds → ds.1 ≤ d + rem := by
  intro rem
  induction rem with
  | zero =>
    intro path idx t h row d ds hq
    simp only [build_tree] at h
    cases h
    simp only [tree_predict_from] at hq
    cases hq
    simp
  | succ rem ih =>
    intro path idx t h row d ds hq
    simp only [build_tree] at h
    cases hg : get_split X idx (o path).1 (o path).2 with
    | error e => simp only [hg] at h; cases h
    | ok sp =>
      simp only [hg] at h
      cases sp with
      | none =>
        cases h
        simp only [tree_predict_from] at hq
        cases hq
        simp
      | some p =>
        cases hs : splitIdx X (o path).1 p idx with
        | error e => simp only [hs] at h; cases h
        | ok pr =>
          obtain ⟨l, rr⟩ := pr
          simp only [hs] at h
          cases hbl : build_tree X o rem (path ++ [false]) l with
          | error e => simp only [hbl] at h; cases h
          | ok lt =>
            cases hbr : build_tree X o rem (path ++ [true]) rr with
            | error e => simp only [hbl, hbr] at h; cases h
            | ok rt =>
              simp only [hbl, hbr] at h
              cases h
              cases hv : row.get? (o path).1 with
              | none => rw [tree_predict_from_node_none hv] at hq; cases hq
              | some v =>
                by_cases hvp : v < p
                · rw [tree_predict_from_node_lt hv hvp] at hq
                  have := ih (path ++ [false]) l lt hbl row (d + 1) ds hq
                  omega
                · rw [tree_predict_from_node_ge hv hvp] at hq
                  have := ih (path ++ [true]) rr rt hbr row (d + 1) ds hq
                  omega

/-- C10: for every tree built with maximum depth maxDepth (a natural
number, hence >= 0) and every query row, the depth returned by the query
is at most maxDepth + 1: the construction loop only splits nodes of
depth <= maxDepth and children are created at depth + 1, so no node
deeper than maxDepth + 1 ever receives children. -/
theorem tree_predict_depth_le (X : List (List ℝ)) (maxDepth : ℕ)
    (idxSample : List ℕ) (oracle : List Bool → ℕ × ℝ) (t : Node)
    (row : List ℝ) (ds : ℕ × ℕ)
    (hb : isolation_tree X maxDepth idxSample oracle = .ok t)
    (hq : tree_predict t row = .ok ds) :
    ds.1 ≤ maxDepth + 1 := by
  unfold isolation_tree at hb
  cases X with
  | nil => cases hb
  | cons x xs =>
    have := build_tree_depth_bound (maxDepth + 1) [] idxSample t hb row 0
      ds hq
    omega

/-! ### The scoring loop against the mean formula -/

lemma score_loop_eq {row : List ℝ} :
    ∀ (ts : List Node) (pairs : List (ℕ × ℕ)) (acc : ℝ),
      exceptMapM (fun t => tree_predict t row) ts = .ok pairs →
      score_loop row ts acc =
        .ok (acc + (pairs.map
          (fun ds => ((ds.1 : ℝ) + get_adjustment (ds.2 : ℤ)))).sum) := by
  intro ts
  induction ts with
  | nil =>
    intro pairs acc h
    simp only [exceptMapM] at h
    cases h
    simp [score_loop]
  | cons t ts ih =>
    intro pairs acc h
    simp only [exceptMapM] at h
    cases hg : tree_predict t row with
    | error e => simp only [hg] at h; cases h
    | ok ds =>
      simp only [hg] at h
      cases hm : exceptMapM (fun t => tree_predict t row) ts with
      | error e => simp only [hm] at h; cases h
      | ok ps =>
        simp only [hm] at h
        cases h
        simp only [score_loop, hg]
        rw [ih ps _ hm]
        simp [add_assoc]

lemma score_loop_ok_of_ok {row : List ℝ} :
    ∀ (ts : List Node) (acc : ℝ),
      (∀ t ∈ ts, ∃ ds, tree_predict t row = .ok ds) →
      ∃ sc, score_loop row ts acc = .ok sc ∧ acc ≤ sc := by
  intro ts
  induction ts with
  | nil => intro acc _; exact ⟨acc, rfl, le_rfl⟩
  | cons t ts ih =>
    intro acc hall
    rcases hall t (List.mem_cons_self t ts) with ⟨ds, hds⟩
    rcases ih (acc + ((ds.1 : ℝ) + get_adjustment (ds.2 : ℤ)))
      (fun u hu => hall u (List.mem_cons_of_mem t hu)) with ⟨sc, hsc, hle⟩
    refine ⟨sc, ?_, ?_⟩
    · simp only [score_loop, hds]
      exact hsc
    · have hd : (0 : ℝ) ≤ (ds.1 : ℝ) := Nat.cast_nonneg ds.1
      have ha := get_adjustment_nonneg (ds.2 : ℤ)
      linarith

lemma score_loop_nonneg {row : List ℝ} {ts : List Node} {acc sc : ℝ}
    (h : score_loop row ts acc = .ok sc) (hacc : 0 ≤ acc) : 0 ≤ sc := by
  induction ts generalizing acc with
  | nil =>
    simp only [score_loop] at h
    cases h
    exact hacc
  | cons t ts ih =>
    simp only [score_loop] at h
    cases hg : tree_predict t row with
    | error e => simp only [hg] at h; cases h
    | ok ds =>
      simp only [hg] at h
      refine ih h ?_
      have hd : (0 : ℝ) ≤ (ds.1 : ℝ) := Nat.cast_nonneg ds.1
      have ha := get_adjustment_nonneg (ds.2 : ℤ)
      linarith

/-- C1: for every forest and every input row, whenever every tree query
returns (so the query pairs are given by pairs), the forest has at least
one tree and the stored adjustment is nonzero (otherwise the Python code
raises ZeroDivisionError instead of returning a score), the score
returned for that row equals 2 ^ -(mean_score / adjustment) where
mean_score is the average over all trees of depth_i + adjustment of
leaf_size_i; and predict, whenever it returns on a dataset X, returns
one such score per input row in the same order. -/
theorem forest_predict_row_formula (F : Forest) (row : List ℝ)
    (pairs : List (ℕ × ℕ)) (X : List (List ℝ)) (ys : List ℝ)
    (hq : exceptMapM (fun t => tree_predict t row) F.trees = .ok pairs)
    (hn : F.trees.length ≠ 0) (ha : F.adjustment ≠ 0)
    (hX : forest_predict F X = .ok ys) :
    forest_predict_row F row =
      .ok ((2 : ℝ) ^
        (-((pairs.map
            (fun ds => ((ds.1 : ℝ) + get_adjustment (ds.2 : ℤ)))).sum
          / (F.trees.length : ℝ) / F.adjustment))) ∧
    ys.length = X.length ∧
    ∀ i (hi : i < X.length) (hi2 : i < ys.length),
      forest_predict_row F (X.get ⟨i, hi⟩) = .ok (ys.get ⟨i, hi2⟩) := by
  refine ⟨?_, ?_, ?_⟩
  · unfold forest_predict_row
    simp only [score_loop_eq F.trees pairs 0 hq]
    rw [if_neg hn, if_neg ha, zero_add]
  · exact exceptMapM_ok_length hX
  · exact fun i hi hi2 => exceptMapM_ok_get hX i hi hi2

/-! ### Facts about fit -/

lemma fit_adjustment {X : List (List ℝ)} {n_samples maxDepth n_trees : ℕ}
    {samples : ℕ → List ℕ} {oracles : ℕ → List Bool → ℕ × ℝ} {F : Forest}
    (h : fit X n_samples maxDepth n_trees samples oracles = .ok F) :
    F.adjustment = get_adjustment (n_samples : ℤ) := by
  unfold fit at h
  cases hm : exceptMapM
      (fun k => isolation_tree X maxDepth (samples k) (oracles k))
      (List.range n_trees) with
  | error e => simp only [hm] at h; cases h
  | ok ts =>
    simp only [hm] at h
    cases h
    rfl

lemma fit_trees_from {X : List (List ℝ)} {n_samples maxDepth n_trees : ℕ}
    {samples : ℕ → List ℕ} {oracles : ℕ → List Bool → ℕ × ℝ} {F : Forest}
    (h : fit X n_samples maxDepth n_trees samples oracles = .ok F) :
    ∀ t ∈ F.trees, ∃ k ∈ List.range n_trees,
      isolation_tree X maxDepth (samples k) (oracles k) = .ok t := by
  unfold fit at h
  cases hm : exceptMapM
      (fun k => isolation_tree X maxDepth (samples k) (oracles k))
      (List.range n_trees) with
  | error e => simp only [hm] at h; cases h
  | ok ts =>
    simp only [hm] at h
    cases h
    exact fun t ht => exceptMapM_ok_mem hm t ht

/-- C5: whenever fit produced a forest and predict returns a score for a
row (the code raises ZeroDivisionError rather than returning when the
forest has no trees or zero adjustment, and IndexError when a tree query
reads past the end of the row), that score lies in (0, 1]. -/
theorem forest_predict_row_in_unit (X : List (List ℝ))
    (n_samples maxDepth n_trees : ℕ) (samples : ℕ → List ℕ)
    (oracles : ℕ → List Bool → ℕ × ℝ) (F : Forest) (row : List ℝ) (s : ℝ)
    (hfit : fit X n_samples maxDepth n_trees samples oracles = .ok F)
    (hp : forest_predict_row F row = .ok s) :
    0 < s ∧ s ≤ 1 := by
  have hadj : F.adjustment = get_adjustment (n_samples : ℤ) :=
    fit_adjustment hfit
  unfold forest_predict_row at hp
  cases hsc : score_loop row F.trees 0 with
  | error e => simp only [hsc] at hp; cases hp
  | ok sc =>
    simp only [hsc] at hp
    by_cases h0 : F.trees.length = 0
    · rw [if_pos h0] at hp; cases hp
    · rw [if_neg h0] at hp
      by_cases ha0 : F.adjustment = 0
      · rw [if_pos ha0] at hp; cases hp
      · rw [if_neg ha0] at hp
        cases hp
        have hscn : 0 ≤ sc := score_loop_nonneg hsc le_rfl
        have hlen : (0 : ℝ) < (F.trees.length : ℝ) := by
          exact_mod_cast Nat.pos_of_ne_zero h0
        have hadjpos : 0 < F.adjustment := by
          rcases lt_or_eq_of_le (hadj ▸ get_adjustment_nonneg (n_samples : ℤ))
            with hlt | heq
          · exact hlt
          · exact absurd heq.symm ha0
        have hexp : -(sc / (F.trees.length : ℝ) / F.adjustment) ≤ 0 := by
          have : 0 ≤ sc / (F.trees.length : ℝ) / F.adjustment := by
            positivity
          linarith
        constructor
        · exact Real.rpow_pos_of_pos (by norm_num) _
        · exact Real.rpow_le_one_of_one_le_of_nonpos (by norm_num) hexp

/-- C6 (amended): fit performs no input validation and raises no
InvalidInputError (no such error exists in the code); with at least one
tree requested, fitting an empty dataset fails immediately with the
unhandled IndexError raised by evaluating len(X[0]) in the first tree's
construction.  (Ragged rows are not detected at all; see the
counterexample, where fit succeeds on a ragged dataset.) -/
theorem fit_empty_dataset_index_error (n_samples maxDepth n_trees : ℕ)
    (samples : ℕ → List ℕ) (oracles : ℕ → List Bool → ℕ × ℝ)
    (h : 0 < n_trees) :
    fit [] n_samples maxDepth n_trees samples oracles =
      .error "IndexError" := by
  unfold fit
  have hall : ∀ k ∈ List.range n_trees,
      isolation_tree [] maxDepth (samples k) (oracles k) =
        .error "IndexError" := fun k _ => rfl
  have hne : List.range n_trees ≠ [] := by
    simp [List.range_eq_nil]
    omega
  rw [exceptMapM_error_of_first hne hall]

/-- C7 (amended): when fit is called with a subsample size larger than
the dataset row count and sampling therefore clamps (each tree's sample
is a permutation of all row indices), a successful fit stores
adjustment = _get_adjustment(n_samples) computed from the UNCLAMPED
configured subsample size, while every tree is built over the full
dataset (its root size is the dataset row count). -/
theorem fit_clamp_adjustment_unclamped (X : List (List ℝ))
    (n_samples maxDepth n_trees : ℕ) (samples : ℕ → List ℕ)
    (oracles : ℕ → List Bool → ℕ × ℝ) (F : Forest)
    (hgt : X.length < n_samples)
    (hs : ∀ k, (samples k).Perm (List.range X.length))
    (hfit : fit X n_samples maxDepth n_trees samples oracles = .ok F) :
    F.adjustment = get_adjustment (n_samples : ℤ) ∧
    ∀ t ∈ F.trees, t.size = X.length := by
  refine ⟨fit_adjustment hfit, ?_⟩
  intro t ht
  rcases fit_trees_from hfit t ht with ⟨k, _, hk⟩
  unfold isolation_tree at hk
  cases hX : X with
  | nil => rw [hX] at hk; cases hk
  | cons x xs =>
    rw [hX] at hk
    have hsize := build_tree_ok_size hk
    have hlen : (samples k).length = X.length := by
      have := (hs k).length_eq
      simpa using this
    rw [hsize, hlen, hX]

/-! ### Split selection and partition: C3 and C9 -/

lemma get_split_of_vals {X : List (List ℝ)} {idx : List ℕ} {f : ℕ}
    {r : ℝ} {vals : List ℝ} (hvals : colValsE X idx f = .ok vals) :
    get_split X idx f r = splitOfVals vals r := by
  unfold get_split
  simp only [hvals]

/-- C3 (amended): split-point selection returns no split exactly when
the indexed rows hold a single distinct value; otherwise it excludes the
minimum distinct value and returns r * (upper - lower) + lower for the
draw r in [0, 1), where lower and upper are the min and max of the
remaining distinct values; the returned point lies in the CLOSED
interval [lower, upper] — strictly below upper whenever lower < upper,
so in the half-open interval [lower, upper) in that case — and is
strictly above the true minimum of the index set.  (The original claim's
half-open interval is empty when only one distinct value remains after
the exclusion; see the counterexample.) -/
theorem get_split_characterization (X : List (List ℝ)) (idx : List ℕ)
    (f : ℕ) (r : ℝ) (vals : List ℝ)
    (hvals : colValsE X idx f = .ok vals) (hidx : idx ≠ [])
    (hr0 : 0 ≤ r) (hr1 : r < 1) :
    (get_split X idx f r = .ok none ↔ vals.toFinset.card = 1) ∧
    ∀ p, get_split X idx f r = .ok (some p) →
      p = r * (fmax (restF vals) - fmin (restF vals)) + fmin (restF vals) ∧
      fmin (restF vals) ≤ p ∧ p ≤ fmax (restF vals) ∧
      (fmin (restF vals) < fmax (restF vals) → p < fmax (restF vals)) ∧
      fmin vals.toFinset < p := by
  rw [get_split_of_vals hvals]
  constructor
  · exact splitOfVals_none_iff
  · intro p hp
    obtain ⟨hcard, hpe⟩ := splitOfVals_some_inv hp
    have hrestne : (restF vals).Nonempty := by
      apply Finset.card_pos.mp
      rw [restF, Finset.card_erase_of_mem
        (fmin_mem (Finset.card_pos.mp (by omega)))]
      omega
    have hlohi : fmin (restF vals) ≤ fmax (restF vals) :=
      fmin_le_fmax hrestne
    have hlo : fmin (restF vals) ≤ p := by
      rw [hpe]
      nlinarith
    have hhi : p ≤ fmax (restF vals) := by
      rw [hpe]
      nlinarith
    have hstrict : fmin (restF vals) < fmax (restF vals) →
        p < fmax (restF vals) := by
      intro hlt
      rw [hpe]
      nlinarith
    have hmin : fmin vals.toFinset < p := by
      have h1 : fmin vals.toFinset < fmin (restF vals) := by
        rw [restF]
        exact fmin_lt_fmin_erase hcard
      linarith
    exact ⟨hpe, hlo, hhi, hstrict, hmin⟩

lemma splitIdxLoop_ok_spec {X : List (List ℝ)} {f : ℕ} {p : ℝ} :
    ∀ (rest accl accr : List ℕ),
      (∀ i ∈ rest, ∃ v, getCell X i f = .ok v) →
      ∃ l rr, splitIdxLoop X f p rest accl accr = .ok (l, rr) ∧
        (∀ j ∈ accl, j ∈ l) ∧ (∀ j ∈ accr, j ∈ rr) ∧
        (∀ i ∈ rest, ∀ v, getCell X i f = .ok v →
          (v < p → i ∈ l) ∧ (¬ v < p → i ∈ rr)) := by
  intro rest
  induction rest with
  | nil =>
    intro accl accr _
    exact ⟨accl, accr, rfl, fun j hj => hj, fun j hj => hj,
      fun i hi => absurd hi (List.not_mem_nil i)⟩
  | cons i rest ih =>
    intro accl accr hall
    rcases hall i (List.mem_cons_self i rest) with ⟨v, hv⟩
    by_cases hvp : v < p
    · rcases ih (accl ++ [i]) accr
        (fun j hj => hall j (List.mem_cons_of_mem i hj)) with
        ⟨l, rr, heq, hl, hr, hmem⟩
      refine ⟨l, rr, ?_, ?_, hr, ?_⟩
      · simp only [splitIdxLoop, hv, if_pos hvp]
        exact heq
      · exact fun j hj => hl j (by simp [hj])
      · intro i2 hi2 v2 hv2
        rcases List.mem_cons.mp hi2 with hi2 | hi2
        · subst hi2
          rw [hv] at hv2
          cases hv2
          exact ⟨fun _ => hl i2 (by simp), fun hc => absurd hvp hc⟩
        · exact hmem i2 hi2 v2 hv2
    · rcases ih accl (accr ++ [i])
        (fun j hj => hall j (List.mem_cons_of_mem i hj)) with
        ⟨l, rr, heq, hl, hr, hmem⟩
      refine ⟨l, rr, ?_, hl, ?_, ?_⟩
      · simp only [splitIdxLoop, hv, if_neg hvp]
        exact heq
      · exact fun j hj => hr j (by simp [hj])
      · intro i2 hi2 v2 hv2
        rcases List.mem_cons.mp hi2 with hi2 | hi2
        · subst hi2
          rw [hv] at hv2
          cases hv2
          exact ⟨fun hc => absurd hc hvp, fun _ => hr i2 (by simp)⟩
        · exact hmem i2 hi2 v2 hv2

/-- C9: whenever a split point is found (with the draw r in [0, 1)) and
the index set is partitioned by it, both resulting sides are nonempty:
every index holding the column's minimum value falls strictly below the
split point (into idx_left) and every index holding the column's maximum
value falls at or above it (into idx_right). -/
theorem split_children_nonempty (X : List (List ℝ)) (idx : List ℕ)
    (f : ℕ) (r : ℝ) (vals : List ℝ) (p : ℝ) (l rr : List ℕ)
    (hvals : colValsE X idx f = .ok vals)
    (hsplit : get_split X idx f r = .ok (some p))
    (hr0 : 0 ≤ r) (hr1 : r < 1)
    (hpart : splitIdx X f p idx = .ok (l, rr)) :
    0 < l.length ∧ 0 < rr.length ∧
    ∀ i ∈ idx, ∀ v, getCell X i f = .ok v →
      (v = fmin vals.toFinset → i ∈ l) ∧
      (v = fmax vals.toFinset → i ∈ rr) := by
  rw [get_split_of_vals hvals] at hsplit
  obtain ⟨hcard, hpe⟩ := splitOfVals_some_inv hsplit
  have hsne : vals.toFinset.Nonempty := Finset.card_pos.mp (by omega)
  have hrestne : (restF vals).Nonempty := by
    apply Finset.card_pos.mp
    rw [restF, Finset.card_erase_of_mem (fmin_mem hsne)]
    omega
  have hlohi : fmin (restF vals) ≤ fmax (restF vals) :=
    fmin_le_fmax hrestne
  have hminp : fmin vals.toFinset < p := by
    have h1 : fmin vals.toFinset < fmin (restF vals) := by
      rw [restF]
      exact fmin_lt_fmin_erase hcard
    have h2 : fmin (restF vals) ≤ p := by rw [hpe]; nlinarith
    linarith
  have hpmax : p ≤ fmax vals.toFinset := by
    have h1 : fmax (restF vals) = fmax vals.toFinset := by
      rw [restF]
      exact fmax_erase_fmin hcard
    have h2 : p ≤ fmax (restF vals) := by rw [hpe]; nlinarith
    linarith
  -- every index of idx carries an ok cell value
  have hall : ∀ i ∈ idx.reverse, ∃ v, getCell X i f = .ok v := by
    intro i hi
    rcases exceptMapM_mem_ok hvals i (List.mem_reverse.mp hi) with
      ⟨v, _, hv⟩
    exact ⟨v, hv⟩
  rcases splitIdxLoop_ok_spec idx.reverse [] [] hall with
    ⟨l2, rr2, heq, _, _, hmem⟩
  rw [splitIdx, heq] at hpart
  have hinj : l2 = l ∧ rr2 = rr := by
    simp only [Except.ok.injEq, Prod.mk.injEq] at hpart
    exact hpart
  obtain ⟨hl2, hr2⟩ := hinj
  subst hl2
  subst hr2
  -- the minimum value is attained by some index, landing on the left
  have hminmem : ∃ i ∈ idx, getCell X i f = .ok (fmin vals.toFinset) := by
    rcases exceptMapM_ok_mem hvals (fmin vals.toFinset)
      (List.mem_toFinset.mp (fmin_mem hsne)) with ⟨i, hi, hgi⟩
    exact ⟨i, hi, hgi⟩
  have hmaxmem : ∃ i ∈ idx, getCell X i f = .ok (fmax vals.toFinset) := by
    rcases exceptMapM_ok_mem hvals (fmax vals.toFinset)
      (List.mem_toFinset.mp (fmax_mem hsne)) with ⟨i, hi, hgi⟩
    exact ⟨i, hi, hgi⟩
  rcases hminmem with ⟨i0, hi0, hgi0⟩
  rcases hmaxmem with ⟨j0, hj0, hgj0⟩
  have hi0l : i0 ∈ l2 :=
    (hmem i0 (List.mem_reverse.mpr hi0) _ hgi0).1 hminp
  have hj0r : j0 ∈ rr2 :=
    (hmem j0 (List.mem_reverse.mpr hj0) _ hgj0).2 (not_lt.mpr hpmax)
  refine ⟨List.length_pos.mpr (List.ne_nil_of_mem hi0l),
    List.length_pos.mpr (List.ne_nil_of_mem hj0r), ?_⟩
  intro i hi v hv
  constructor
  · intro hvm
    rw [hvm] at hv
    exact (hmem i (List.mem_reverse.mpr hi) _ hv).1 hminp
  · intro hvm
    rw [hvm] at hv
    exact (hmem i (List.mem_reverse.mpr hi) _ hv).2 (not_lt.mpr hpmax)

/-! ### Concrete evaluations -/

lemma splitOfVals_single (a r : ℝ) : splitOfVals [a] r = .ok none := by
  simp [splitOfVals]

lemma splitOfVals_pair {a b : ℝ} (hab : a < b) (r : ℝ) :
    splitOfVals [a, b] r = .ok (some (r * (b - b) + b)) := by
  have hs : ([a, b] : List ℝ).toFinset = {a, b} := by simp
  have hnotmem : a ∉ ({b} : Finset ℝ) := by
    simp [ne_of_lt hab]
  have hcard : ({a, b} : Finset ℝ).card = 2 := by
    rw [Finset.card_insert_of_not_mem hnotmem, Finset.card_singleton]
  have hne : ({a, b} : Finset ℝ).Nonempty := ⟨a, by simp⟩
  have hmin : ({a, b} : Finset ℝ).min' hne = a := by
    have h1 := fmin_pair (le_of_lt hab)
    rw [fmin, dif_pos hne] at h1
    exact h1
  have herase : ({a, b} : Finset ℝ).erase a = {b} :=
    Finset.erase_insert hnotmem
  unfold splitOfVals
  rw [hs]
  rw [if_neg (by rw [hcard]; norm_num), dif_pos hne, hmin, herase,
    if_pos (Finset.singleton_nonempty b), fmax_singleton, fmin_singleton]

lemma get_split_eval_pairX :
    get_split [[0], [1]] [0, 1] 0 (1 / 2) = .ok (some 1) := by
  have hv : colValsE [[0], [1]] [0, 1] 0 = .ok [0, 1] := rfl
  rw [get_split_of_vals hv, splitOfVals_pair (by norm_num : (0:ℝ) < 1)]
  norm_num

lemma get_split_eval_raggedX :
    get_split [[0, 0], [1]] [0, 1] 0 (1 / 2) = .ok (some 1) := by
  have hv : colValsE [[0, 0], [1]] [0, 1] 0 = .ok [0, 1] := rfl
  rw [get_split_of_vals hv, splitOfVals_pair (by norm_num : (0:ℝ) < 1)]
  norm_num

lemma get_split_eval_single :
    get_split [[(0:ℝ)]] [0] 0 0 = .ok none := by
  have hv : colValsE [[(0:ℝ)]] [0] 0 = .ok [0] := rfl
  rw [get_split_of_vals hv, splitOfVals_single]

lemma restF_eval_01 : restF [(0:ℝ), 1] = {1} := by
  have hs : ([(0:ℝ), 1] : List ℝ).toFinset = {0, 1} := by simp
  have hnotmem : (0:ℝ) ∉ ({1} : Finset ℝ) := by norm_num
  rw [restF, hs, fmin_pair (by norm_num : (0:ℝ) ≤ 1),
    Finset.erase_insert hnotmem]

lemma splitIdx_eval_pairX :
    splitIdx [[0], [1]] 0 1 [0, 1] = .ok ([0], [1]) := by
  have h1 : getCell [[0], [1]] 1 0 = .ok 1 := rfl
  have h0 : getCell [[0], [1]] 0 0 = .ok 0 := rfl
  show splitIdxLoop [[0], [1]] 0 1 [1, 0] [] [] = .ok ([0], [1])
  simp only [splitIdxLoop, h1, h0]
  rw [if_neg (lt_irrefl (1:ℝ)), if_pos (by norm_num : (0:ℝ) < 1)]
  rfl

lemma splitIdx_eval_raggedX :
    splitIdx [[0, 0], [1]] 0 1 [0, 1] = .ok ([0], [1]) := by
  have h1 : getCell [[0, 0], [1]] 1 0 = .ok 1 := rfl
  have h0 : getCell [[0, 0], [1]] 0 0 = .ok 0 := rfl
  show splitIdxLoop [[0, 0], [1]] 0 1 [1, 0] [] [] = .ok ([0], [1])
  simp only [splitIdxLoop, h1, h0]
  rw [if_neg (lt_irrefl (1:ℝ)), if_pos (by norm_num : (0:ℝ) < 1)]
  rfl

lemma isolation_tree_eval_single :
    isolation_tree [[(0:ℝ)]] 0 [0] (fun _ => (0, 0)) = .ok (.leaf 1) := by
  show build_tree [[(0:ℝ)]] (fun _ => (0, 0)) (0 + 1) [] [0] =
    .ok (.leaf 1)
  simp only [build_tree, get_split_eval_single]
  rfl

lemma isolation_tree_eval_pairX :
    isolation_tree [[(0:ℝ)], [1]] 0 [0, 1] (fun _ => (0, 1 / 2)) =
      .ok (.node 2 0 1 (.leaf 1) (.leaf 1)) := by
  show build_tree [[(0:ℝ)], [1]] (fun _ => (0, 1 / 2)) (0 + 1) [] [0, 1] =
    .ok (.node 2 0 1 (.leaf 1) (.leaf 1))
  simp only [build_tree, get_split_eval_pairX, splitIdx_eval_pairX]
  rfl

lemma isolation_tree_eval_raggedX :
    isolation_tree [[(0:ℝ), 0], [1]] 0 [0, 1] (fun _ => (0, 1 / 2)) =
      .ok (.node 2 0 1 (.leaf 1) (.leaf 1)) := by
  show build_tree [[(0:ℝ), 0], [1]] (fun _ => (0, 1 / 2)) (0 + 1) []
      [0, 1] = .ok (.node 2 0 1 (.leaf 1) (.leaf 1))
  simp only [build_tree, get_split_eval_raggedX, splitIdx_eval_raggedX]
  rfl

lemma fit_eval_single :
    fit [[(0:ℝ)]] 2 0 1 (fun _ => [0]) (fun _ _ => (0, 0)) =
      .ok ⟨[.leaf 1], get_adjustment 2⟩ := by
  unfold fit
  have hr : List.range 1 = [0] := rfl
  rw [hr]
  simp only [exceptMapM, isolation_tree_eval_single]
  rfl

lemma fit_eval_pairX :
    fit [[(0:ℝ)], [1]] 5 0 1 (fun _ => [0, 1]) (fun _ _ => (0, 1 / 2)) =
      .ok ⟨[.node 2 0 1 (.leaf 1) (.leaf 1)], get_adjustment 5⟩ := by
  unfold fit
  have hr : List.range 1 = [0] := rfl
  rw [hr]
  simp only [exceptMapM, isolation_tree_eval_pairX]
  rfl

lemma fit_eval_raggedX :
    fit [[(0:ℝ), 0], [1]] 2 0 1 (fun _ => [0, 1]) (fun _ _ => (0, 1 / 2)) =
      .ok ⟨[.node 2 0 1 (.leaf 1) (.leaf 1)], get_adjustment 2⟩ := by
  unfold fit
  have hr : List.range 1 = [0] := rfl
  rw [hr]
  simp only [exceptMapM, isolation_tree_eval_raggedX]
  rfl

lemma forest_predict_row_eval_single :
    forest_predict_row ⟨[.leaf 1], get_adjustment 2⟩ [0] = .ok 1 := by
  have htp : tree_predict (Node.leaf 1) [(0:ℝ)] = .ok (0, 1) := rfl
  have hsc : score_loop [(0:ℝ)] [Node.leaf 1] 0 =
      .ok (0 + (((0:ℕ) : ℝ) + get_adjustment ((1:ℕ) : ℤ))) := by
    simp only [score_loop, htp]
  unfold forest_predict_row
  simp only [hsc]
  rw [if_neg (by norm_num : ¬ (List.length [Node.leaf 1] = 0)),
    if_neg (by rw [get_adjustment_two]; norm_num :
      ¬ (get_adjustment 2 = (0:ℝ)))]
  have hexp : -((0 + (((0:ℕ) : ℝ) + get_adjustment ((1:ℕ) : ℤ)))
      / ((List.length [Node.leaf 1] : ℕ) : ℝ) / get_adjustment 2) = 0 := by
    have h1 : get_adjustment ((1:ℕ) : ℤ) = 0 := get_adjustment_one
    rw [h1]
    norm_num
  rw [hexp, Real.rpow_zero]

lemma one_lt_get_adjustment_five : 1 < get_adjustment 5 := by
  rw [get_adjustment_of_gt_two (by norm_num : (2:ℤ) < 5)]
  have h4 : ((5:ℤ) : ℝ) - 1 = 2 ^ (2:ℕ) := by norm_num
  rw [h4, Real.log_pow]
  have hl := Real.log_two_gt_d9
  have h5 : ((5:ℤ) : ℝ) = 5 := by norm_num
  rw [h5]
  push_cast
  norm_num
  linarith

lemma get_adjustment_five_ne : get_adjustment 5 ≠ get_adjustment 2 := by
  rw [get_adjustment_two]
  exact ne_of_gt one_lt_get_adjustment_five

/-- Counterexample to C3 as stated: with dataset [[0], [1]], index set
[0, 1], feature 0 and draw r = 1/2, only the value 1 remains after the
minimum distinct value is excluded, so lower = upper = 1 and the
half-open interval [lower, upper) is empty; the returned split point is
1, which therefore does not lie in it. -/
theorem get_split_interval_counterexample :
    get_split [[0], [1]] [0, 1] 0 (1 / 2) = .ok (some 1) ∧
    fmin (restF [(0:ℝ), 1]) = 1 ∧ fmax (restF [(0:ℝ), 1]) = 1 ∧
    (1:ℝ) ∉ Set.Ico (fmin (restF [(0:ℝ), 1]))
      (fmax (restF [(0:ℝ), 1])) := by
  have h1 : fmin (restF [(0:ℝ), 1]) = 1 := by
    rw [restF_eval_01, fmin_singleton]
  have h2 : fmax (restF [(0:ℝ), 1]) = 1 := by
    rw [restF_eval_01, fmax_singleton]
  refine ⟨get_split_eval_pairX, h1, h2, ?_⟩
  rw [h1, h2]
  simp

/-- Witness for C3 (amended), instantiated at the concrete split above:
the returned point 1 is strictly above the true minimum 0 of the indexed
column values. -/
theorem get_split_characterization_witness :
    fmin ([(0:ℝ), 1] : List ℝ).toFinset < 1 :=
  ((get_split_characterization [[0], [1]] [0, 1] 0 (1 / 2) [0, 1] rfl
    (by simp) (by norm_num) (by norm_num)).2 1
    get_split_eval_pairX).2.2.2.2

/-- Witness for C1: a one-tree forest with adjustment 1 queried on the
empty row; all hypotheses hold and the returned score matches the mean
formula. -/
theorem forest_predict_row_formula_witness :
    forest_predict_row ⟨[Node.leaf 1], 1⟩ [] =
      .ok ((2:ℝ) ^
        (-((List.map
              (fun ds => ((ds.1 : ℝ) + get_adjustment (ds.2 : ℤ)))
              [((0:ℕ), (1:ℕ))]).sum
            / ((List.length [Node.leaf 1] : ℕ) : ℝ) / (1:ℝ)))) :=
  (forest_predict_row_formula ⟨[Node.leaf 1], 1⟩ [] [(0, 1)] [] [] rfl
    (by decide) (by norm_num) rfl).1

/-- Witness for C5: the fit over [[0]] with n_samples = 2 produces the
score 1 for row [0], and 1 lies in (0, 1]. -/
theorem forest_predict_row_in_unit_witness : 0 < (1:ℝ) ∧ (1:ℝ) ≤ 1 :=
  forest_predict_row_in_unit [[(0:ℝ)]] 2 0 1 (fun _ => [0])
    (fun _ _ => (0, 0)) ⟨[.leaf 1], get_adjustment 2⟩ [0] 1
    fit_eval_single forest_predict_row_eval_single

/-- Counterexample to C6: fit succeeds on the ragged dataset
[[0, 0], [1]] (rows of widths 2 and 1) when the random feature choice is
column 0 — no InvalidInputError (no such error exists in the code) and
no failure at all. -/
theorem fit_ragged_succeeds_counterexample :
    fit [[(0:ℝ), 0], [1]] 2 0 1 (fun _ => [0, 1]) (fun _ _ => (0, 1 / 2)) =
      .ok ⟨[.node 2 0 1 (.leaf 1) (.leaf 1)], get_adjustment 2⟩ :=
  fit_eval_raggedX

/-- Witness for C6 (amended): fitting the empty dataset with one tree
requested fails with IndexError. -/
theorem fit_empty_dataset_index_error_witness :
    fit [] 100 10 1 (fun _ => []) (fun _ _ => (0, 0)) =
      .error "IndexError" :=
  fit_empty_dataset_index_error 100 10 1 (fun _ => []) (fun _ _ => (0, 0))
    (by norm_num)

/-- Counterexample to C7: with 2 rows and subsample_size 5 the sampling
clamps to 2 (the tree is built over both rows; its root size is 2), yet
the stored adjustment is _get_adjustment(5), which differs from
_get_adjustment(2), the expected path length of the clamped size. -/
theorem fit_adjustment_clamp_counterexample :
    fit [[(0:ℝ)], [1]] 5 0 1 (fun _ => [0, 1]) (fun _ _ => (0, 1 / 2)) =
      .ok ⟨[.node 2 0 1 (.leaf 1) (.leaf 1)], get_adjustment 5⟩ ∧
    get_adjustment 5 ≠ get_adjustment 2 :=
  ⟨fit_eval_pairX, get_adjustment_five_ne⟩

/-- Witness for C7 (amended): the concrete clamped fit stores
adjustment = _get_adjustment(5) (the unclamped configured size). -/
theorem fit_clamp_adjustment_unclamped_witness :
    Forest.adjustment
      ⟨[.node 2 0 1 (.leaf 1) (.leaf 1)], get_adjustment 5⟩ =
      get_adjustment ((5:ℕ) : ℤ) :=
  (fit_clamp_adjustment_unclamped [[(0:ℝ)], [1]] 5 0 1 (fun _ => [0, 1])
    (fun _ _ => (0, 1 / 2))
    ⟨[.node 2 0 1 (.leaf 1) (.leaf 1)], get_adjustment 5⟩
    (by norm_num)
    (fun k => by
      have hr : List.range (List.length [[(0:ℝ)], [1]]) = [0, 1] := rfl
      rw [hr])
    fit_eval_pairX).1

/-- Witness for C9: the concrete split of [[0], [1]] at split point 1
puts index 0 on the left and index 1 on the right, so both sides are
nonempty. -/
theorem split_children_nonempty_witness :
    0 < ([0] : List ℕ).length ∧ 0 < ([1] : List ℕ).length :=
  ⟨(split_children_nonempty [[(0:ℝ)], [1]] [0, 1] 0 (1 / 2) [0, 1] 1
      [0] [1] rfl get_split_eval_pairX (by norm_num) (by norm_num)
      splitIdx_eval_pairX).1,
   (split_children_nonempty [[(0:ℝ)], [1]] [0, 1] 0 (1 / 2) [0, 1] 1
      [0] [1] rfl get_split_eval_pairX (by norm_num) (by norm_num)
      splitIdx_eval_pairX).2.1⟩

/-- Witness for C10: a tree built with maxDepth 0 answers a query at
depth 0 <= 0 + 1. -/
theorem tree_predict_depth_le_witness : ((0:ℕ), (1:ℕ)).1 ≤ 0 + 1 :=
  tree_predict_depth_le [[(0:ℝ)]] 0 [0] (fun _ => (0, 0)) (.leaf 1) [0]
    (0, 1) isolation_tree_eval_single rfl
